import Mathlib

/-!
Verification of the ReefLit rule-based annotation core against its
natural-language specification.  Python strings are modelled as `List Char`;
`str.replace` with single-character arguments is a character-wise map,
`str.split(c, 1)` is a split at the first occurrence, and substring tests
are `List.IsInfix`.  Fallible operations (dictionary / list indexing,
`random.sample` size checks) land in `Except`.
-/

/-- Character-wise replacement, the meaning of Python `s.replace(a, b)` for
single characters `a`, `b`. -/
def pyReplace (a b : Char) (l : List Char) : List Char :=
  l.map fun c => if c = a then b else c

/-- `src/utils.py` `doi_to_filename`: replace every `/` with `_`. -/
def doi_to_filename (doi : List Char) : List Char :=
  pyReplace '/' '_' doi

/-- Split at the first occurrence of `c`, the meaning of Python
`s.split(c, 1)`: `none` when `c` is absent (Python returns `[s]`),
otherwise the parts before and after the first `c`. -/
def splitFirst (c : Char) : List Char → Option (List Char × List Char)
  | [] => none
  | x :: xs =>
    if x = c then some ([], xs)
    else (splitFirst c xs).map fun p => (x :: p.1, p.2)

/-- The decoder's suffix-marker exception substrings, in source order
(`src/utils.py` lines 35-52). -/
def markersList : List (List Char) :=
  [String.toList "galaxea.g", String.toList "galaxea.",
   String.toList "journal.", String.toList "fmars.",
   String.toList "s41598-", String.toList "pnas."]

/-- The if/elif chain of `filename_to_doi` deciding that the suffix is
rejoined with a single `/` instead of replacing every `_`. -/
def specialCase (s : List Char) : Prop :=
  (String.toList "galaxea.g") <:+: s ∨
  ((String.toList "galaxea.") <:+: s ∧ '_' ∈ s) ∨
  (String.toList "journal.") <:+: s ∨
  (String.toList "fmars.") <:+: s ∨
  (String.toList "s41598-") <:+: s ∨
  (String.toList "pnas.") <:+: s

instance (s : List Char) : Decidable (specialCase s) := by
  unfold specialCase; infer_instance

/-- The `if filename.endswith('.txt')` reassignment at the top of
`filename_to_doi`. -/
def stripTxt (filename : List Char) : List Char :=
  if (String.toList ".txt") <:+ filename
  then filename.take (filename.length - 4) else filename

/-- `src/utils.py` `filename_to_doi`: strip a trailing `.txt`, split at the
first `_`; with no `_` return the input unchanged; otherwise rejoin with a
single `/` when the suffix hits the exception table, else replace every
remaining `_` of the suffix by `/`. -/
def filename_to_doi (filename : List Char) : List Char :=
  match splitFirst '_' (stripTxt filename) with
  | none => stripTxt filename
  | some (p, s) =>
    if specialCase s then p ++ '/' :: s
    else p ++ '/' :: pyReplace '_' '/' s

/-- `src/enrich_corpus.py` `get_doi_from_filename`: unconditionally drop the
last four characters (the assumed `.txt` extension), then decode as in
`filename_to_doi`.  The boolean records whether the
`Unexpected filename format` warning was logged. -/
def get_doi_from_filename (filename : List Char) : List Char × Bool :=
  match splitFirst '_' (filename.take (filename.length - 4)) with
  | none => (filename.take (filename.length - 4), true)
  | some (p, s) =>
    (if specialCase s then p ++ '/' :: s
     else p ++ '/' :: pyReplace '_' '/' s, false)

/-- The suffix of a DOI: the part after the first `/` (empty when the DOI
has no `/`). -/
def doiSuffix (doi : List Char) : List Char :=
  ((splitFirst '/' doi).map Prod.snd).getD []

/-- One extracted-effect row as consumed by `src/evaluate_effects.py`
`sample_effects`.  The code reads only the `type` key of each row; the other
row fields (doi, value, description, start, end, text) do not influence
sampling and are collapsed into an identifying payload. -/
structure EffectRec where
  etype : List Char
  payload : Nat
deriving DecidableEq, Repr

/-- The successful value of an `Except`, `none` on error. -/
def okOf {ε α : Type} : Except ε α → Option α
  | .ok a => some a
  | .error _ => none

/-- Python `random.sample(l, k)`: `k` draws without replacement, abstracted
over the generator state by `pick`; raises `ValueError` when `k` exceeds
the population size. -/
def pySample (pick : List EffectRec → Nat → List EffectRec)
    (l : List EffectRec) (k : Nat) : Except (List Char) (List EffectRec) :=
  if k ≤ l.length then .ok (pick l k)
  else .error (String.toList "Sample larger than population or is negative")

/-- A generator state that always draws the first `k` elements.  Any fixed
state of Python's global generator determines one such draw function. -/
def takePick (l : List EffectRec) (k : Nat) : List EffectRec :=
  l.take k

/-- A generator state that always draws the last `k` elements. -/
def dropPick (l : List EffectRec) (k : Nat) : List EffectRec :=
  l.drop (l.length - k)

/-- The `by_type` grouping loop of `sample_effects`: dict keys in first
occurrence order, each group in original order. -/
def groupByType (effects : List EffectRec) : List (List Char × List EffectRec) :=
  (effects.map (·.etype)).dedup.map fun t =>
    (t, effects.filter fun e => decide (e.etype = t))

/-- The per-type proportional draws of `sample_effects`:
`max(1, int(n * len(group) / len(effects)))` capped at the group size. -/
def perTypeDraws (pick : List EffectRec → Nat → List EffectRec)
    (total n : Nat) :
    List (List Char × List EffectRec) → Except (List Char) (List EffectRec)
  | [] => .ok []
  | (_, g) :: rest =>
    match pySample pick g (min (max 1 (n * g.length / total)) g.length) with
    | .error e => .error e
    | .ok s =>
      match perTypeDraws pick total n rest with
      | .error e => .error e
      | .ok others => .ok (s ++ others)

/-- `src/evaluate_effects.py` `sample_effects`: proportional per-type draws,
then (if short of `n`) a top-up drawn from the whole `effects` list, then a
final draw of exactly `n` rows from the accumulated list. -/
def sample_effects (pick : List EffectRec → Nat → List EffectRec)
    (effects : List EffectRec) (n : Nat) :
    Except (List Char) (List EffectRec) :=
  match perTypeDraws pick effects.length n (groupByType effects) with
  | .error e => .error e
  | .ok samples =>
    match (if samples.length < n then
            match pySample pick effects (n - samples.length) with
            | .error e => .error e
            | .ok remaining => .ok (samples ++ remaining)
          else .ok samples : Except (List Char) (List EffectRec)) with
    | .error e => .error e
    | .ok samples2 => pySample pick samples2 n

/-- Three effects of a single type, a pool smaller than the requested
sample size. -/
def effects3 : List EffectRec :=
  [⟨String.toList "A", 0⟩, ⟨String.toList "A", 1⟩, ⟨String.toList "A", 2⟩]

/-- Six effects of a single type. -/
def effects6 : List EffectRec :=
  [⟨String.toList "A", 0⟩, ⟨String.toList "A", 1⟩, ⟨String.toList "A", 2⟩,
   ⟨String.toList "A", 3⟩, ⟨String.toList "A", 4⟩, ⟨String.toList "A", 5⟩]

/-- One document token: its characters and the character offsets of the
span it occupies in the source text. -/
structure Token where
  chars : List Char
  startChar : Nat
  endChar : Nat
deriving DecidableEq, Repr

/-- Worker for `tokenize`: walks the text accumulating the current word
(in reverse) together with its start offset. -/
def tokenizeAux : List Char → Nat → Option (Nat × List Char) → List Token
  | [], _, none => []
  | [], i, some (s, acc) => [⟨acc.reverse, s, i⟩]
  | c :: rest, i, none =>
    if c.isWhitespace then tokenizeAux rest (i + 1) none
    else tokenizeAux rest (i + 1) (some (i, [c]))
  | c :: rest, i, some (s, acc) =>
    if c.isWhitespace then ⟨acc.reverse, s, i⟩ :: tokenizeAux rest (i + 1) none
    else tokenizeAux rest (i + 1) (some (s, c :: acc))

/-- Whitespace tokenization with character offsets: the model of the spaCy
tokenizer both matchers run on (spaCy is an external dependency; the rule
engine only relies on whole-token alignment). -/
def tokenize (text : List Char) : List Token :=
  tokenizeAux text 0 none

/-- Character-wise lowercasing, Python `s.lower()`. -/
def lowerChars (l : List Char) : List Char :=
  l.map Char.toLower

/-- `src/weak_label.py` `load_taxonomy`: lowercase every phrase of the
category-to-phrases mapping. -/
def load_taxonomy (tax : List (List Char × List (List Char))) :
    List (List Char × List (List Char)) :=
  tax.map fun e => (e.1, e.2.map lowerChars)

/-- The token sequence of one taxonomy phrase (`nlp.make_doc(p)` in
`build_matcher`). -/
def phraseTokens (phrase : List Char) : List (List Char) :=
  (tokenize phrase).map (·.chars)

/-- The token texts of a document (`nlp(text)` over the lowercased
title-plus-abstract in `weak_label.main`). -/
def docTokens (text : List Char) : List (List Char) :=
  (tokenize (lowerChars text)).map (·.chars)

/-- The spaCy `PhraseMatcher` compiled with `attr="LOWER"`: every
`(category, start, end)` whose phrase token sequence occurs contiguously,
whole-token-aligned and case-insensitively, in the document tokens. -/
def phraseMatches (taxonomy : List (List Char × List (List Char)))
    (toks : List (List Char)) : List (List Char × Nat × Nat) :=
  taxonomy.flatMap fun e =>
    e.2.flatMap fun ph =>
      (List.range (toks.length + 1)).filterMap fun p =>
        if ((toks.drop p).take (phraseTokens ph).length).map lowerChars =
              (phraseTokens ph).map lowerChars ∧
            p + (phraseTokens ph).length ≤ toks.length
        then some (e.1, p, p + (phraseTokens ph).length) else none

/-- `src/weak_label.py` `tag_text`: the deduplicated, lexicographically
sorted list of categories with at least one phrase match
(`sorted({...})` over the matcher output). -/
def tag_text (taxonomy : List (List Char × List (List Char)))
    (toks : List (List Char)) : List (List Char) :=
  List.insertionSort (· ≤ ·) ((phraseMatches taxonomy toks).map (·.1)).dedup

/-- The tagger as driven by `weak_label.main`: compile the lowercased
taxonomy, tokenize the lowercased text, and tag. -/
def tag (taxonomy : List (List Char × List (List Char))) (text : List Char) :
    List (List Char) :=
  tag_text (load_taxonomy taxonomy) (docTokens text)

/-- A concrete two-category taxonomy used as witness input. -/
def tax0 : List (List Char × List (List Char)) :=
  [(String.toList "acidification", [String.toList "low pH"]),
   (String.toList "temperature", [String.toList "Heat Stress"])]

/-- Character-wise uppercasing, Python `s.upper()` as used for entity
labels (`pattern_type.upper()`). -/
def upperChars (l : List Char) : List Char :=
  l.map Char.toUpper

/-- One token-level constraint of a grammar rule, the model of a spaCy
token-pattern dict: an exact text, a case-insensitive text, a number-like
shape, or a wildcard. -/
inductive TokenAttr : Type
  | lower : List Char → TokenAttr
  | orth : List Char → TokenAttr
  | likeNum : TokenAttr
  | anyTok : TokenAttr
deriving DecidableEq, Repr

/-- Repetition operator of one token constraint (spaCy `OP`). -/
inductive MatchOp : Type
  | one
  | opt
  | star
  | plus
deriving DecidableEq, Repr

/-- One entry of a rule's constraint sequence. -/
structure TokenSpec where
  attr : TokenAttr
  op : MatchOp
deriving DecidableEq, Repr

/-- Whether one token satisfies one attribute constraint. -/
def attrMatch : TokenAttr → Token → Bool
  | .lower s, t => decide (lowerChars t.chars = s)
  | .orth s, t => decide (t.chars = s)
  | .likeNum, t =>
    !t.chars.isEmpty && t.chars.all fun c => c.isDigit || decide (c = '.')
  | .anyTok, _ => true

/-- Kleene-style repetition: consume any number of tokens satisfying `p`,
then let the continuation `k` accept the rest. -/
def starMatch (p : Token → Bool) (k : List Token → Bool) : List Token → Bool
  | [] => k []
  | t :: ts => k (t :: ts) || (p t && starMatch p k ts)

/-- Whether a constraint sequence matches a token window exactly, with
`one` / `opt` / `star` / `plus` repetition — the deterministic matcher a
compiled grammar rule runs as. -/
def seqMatch : List TokenSpec → List Token → Bool
  | [], ts => ts.isEmpty
  | spec :: rest, ts =>
    match spec.op with
    | .one =>
      match ts with
      | [] => false
      | t :: ts2 => attrMatch spec.attr t && seqMatch rest ts2
    | .opt =>
      seqMatch rest ts ||
        (match ts with
         | [] => false
         | t :: ts2 => attrMatch spec.attr t && seqMatch rest ts2)
    | .star => starMatch (attrMatch spec.attr) (seqMatch rest) ts
    | .plus =>
      match ts with
      | [] => false
      | t :: ts2 => attrMatch spec.attr t && starMatch (attrMatch spec.attr) (seqMatch rest) ts2

/-- One configured grammar pattern with its human-readable description
(one entry of a type's list in `config/effect_sizes.yaml`). -/
structure PatternData where
  pattern : List TokenSpec
  description : List Char
deriving DecidableEq, Repr

/-- The token window `toks[s:e]`. -/
def extractSpan (toks : List Token) (s e : Nat) : List Token :=
  (toks.drop s).take (e - s)

/-- Every window `(s, e)` of the token list satisfying the constraint
sequence: the spaCy `Matcher` reports all of them, overlaps included. -/
def windowMatches (pat : List TokenSpec) (toks : List Token) : List (Nat × Nat) :=
  (List.range (toks.length + 1)).flatMap fun s =>
    (List.range (toks.length + 1)).filterMap fun e =>
      if s ≤ e ∧ e ≤ toks.length ∧ seqMatch pat (extractSpan toks s e) = true
      then some (s, e) else none

/-- All `(key, start, end)` matches of a keyed rule list over a token
list. -/
def allMatches (rules : List (List Char × List TokenSpec)) (toks : List Token) :
    List (List Char × Nat × Nat) :=
  rules.flatMap fun r => (windowMatches r.2 toks).map fun se => (r.1, se.1, se.2)

/-- Decimal digit characters of `n`, most significant first, by repeated
division (fuel-driven so that it evaluates by reduction). -/
def natToCharsAux : Nat → Nat → List Char
  | 0, _ => []
  | fuel + 1, n =>
    if n = 0 then []
    else natToCharsAux fuel (n / 10) ++ [Char.ofNat (48 + n % 10)]

/-- Python `str(n)` for a natural number. -/
def natToChars (n : Nat) : List Char :=
  if n = 0 then ['0'] else natToCharsAux (n + 1) n

/-- Python `int(s)` restricted to plain digit strings; `none` models the
`ValueError` on anything else. -/
def charsToNat? (cs : List Char) : Option Nat :=
  if !cs.isEmpty && cs.all Char.isDigit
  then some (cs.foldl (fun a c => a * 10 + (c.toNat - 48)) 0) else none

/-- Python `s.split(sep)[0]`: the run of characters before the first `_`. -/
def headSplit (l : List Char) : List Char :=
  l.takeWhile fun c => decide (c ≠ '_')

/-- Python `s.split(sep)[-1]`: the run of characters after the last `_`. -/
def lastSplit (l : List Char) : List Char :=
  (l.reverse.takeWhile fun c => decide (c ≠ '_')).reverse

/-- `StatPatternMatcher._add_patterns_to_matcher`: every pattern is added
under the string id `f"{pattern_type}_{i}"`. -/
def statMatcherRules (patterns : List (List Char × List PatternData)) :
    List (List Char × List TokenSpec) :=
  patterns.flatMap fun tp =>
    tp.2.enum.map fun ie => (tp.1 ++ '_' :: natToChars ie.1, ie.2.pattern)

/-- `EffectSizeNER.__init__`: every pattern is added to the entity ruler
under the uppercased type name as label. -/
def rulerPatterns (patterns : List (List Char × List PatternData)) :
    List (List Char × List TokenSpec) :=
  patterns.flatMap fun tp => tp.2.map fun pd => (upperChars tp.1, pd.pattern)

/-- Stable descending insertion for spaCy's span sort key
`(length, -start)`: longer spans first, earlier spans first on equal
length, ties keeping list order. -/
def insertDesc (x : List Char × Nat × Nat) :
    List (List Char × Nat × Nat) → List (List Char × Nat × Nat)
  | [] => [x]
  | y :: ys =>
    if y.2.2 - y.2.1 < x.2.2 - x.2.1 ∨
        (x.2.2 - x.2.1 = y.2.2 - y.2.1 ∧ x.2.1 < y.2.1)
    then x :: y :: ys else y :: insertDesc x ys

/-- Stable sort of spans by `(length, -start)` descending. -/
def sortSpansDesc : List (List Char × Nat × Nat) → List (List Char × Nat × Nat)
  | [] => []
  | x :: xs => insertDesc x (sortSpansDesc xs)

/-- The greedy selection loop of spaCy's span filtering: walk the sorted
spans, keep a span when neither endpoint token is already claimed, and
claim its token range. -/
def greedyFilter :
    List (List Char × Nat × Nat) → List Nat → List (List Char × Nat × Nat)
  | [], _ => []
  | sp :: rest, seen =>
    if sp.2.1 ∈ seen ∨ sp.2.2 - 1 ∈ seen
    then greedyFilter rest seen
    else sp :: greedyFilter rest (seen ++ List.range' sp.2.1 (sp.2.2 - sp.2.1))

/-- Stable ascending insertion by span start. -/
def insertByStart (x : List Char × Nat × Nat) :
    List (List Char × Nat × Nat) → List (List Char × Nat × Nat)
  | [] => [x]
  | y :: ys => if x.2.1 < y.2.1 then x :: y :: ys else y :: insertByStart x ys

/-- Stable sort of spans by start offset, the order of `doc.ents`. -/
def sortByStart : List (List Char × Nat × Nat) → List (List Char × Nat × Nat)
  | [] => []
  | x :: xs => insertByStart x (sortByStart xs)

/-- The overlap resolution the spaCy entity ruler applies before setting
`doc.ents`: deduplicate, sort longest-first, keep greedily non-overlapping
spans, return them sorted by start. -/
def filterSpans (spans : List (List Char × Nat × Nat)) :
    List (List Char × Nat × Nat) :=
  sortByStart (greedyFilter (sortSpansDesc spans.dedup) [])

/-- Start character offset of token `i` (dummy 0 when out of range; all
uses are guarded by span validity). -/
def tokStart (toks : List Token) (i : Nat) : Nat :=
  ((toks.drop i).headD ⟨[], 0, 0⟩).startChar

/-- End character offset of token `i`. -/
def tokEnd (toks : List Token) (i : Nat) : Nat :=
  ((toks.drop i).headD ⟨[], 0, 0⟩).endChar

/-- `span.text` of a token window `[s, e)`: the source characters between
the first token's start offset and the last token's end offset. -/
def spanText (text : List Char) (toks : List Token) (s e : Nat) : List Char :=
  (text.drop (tokStart toks s)).take (tokEnd toks (e - 1) - tokStart toks s)

/-- One entity dict returned by `EffectSizeNER.get_entities`
(`endPos` models the Python `end` key). -/
structure EntityRow where
  text : List Char
  label : List Char
  start : Nat
  endPos : Nat
  description : Option (List Char)
deriving DecidableEq, Repr

/-- `EffectSizeNER._get_entity_description`: look the lowercased label up
in the pattern dict and return the description of the first pattern of
that type; the `text` argument is accepted and ignored, exactly as in the
source. -/
def get_entity_description (patterns : List (List Char × List PatternData))
    (label text : List Char) : Option (List Char) :=
  match patterns.find? fun tp => decide (tp.1 = lowerChars label) with
  | none => none
  | some tp => tp.2.head?.map (·.description)

/-- `EffectSizeNER.get_entities`: run the entity ruler (all matches, then
spaCy's overlap filtering), keep entities whose lowercased label is a
pattern-dict key, and report character offsets, span text and the type's
description. -/
def get_entities (patterns : List (List Char × List PatternData))
    (text : List Char) : List EntityRow :=
  let toks := tokenize text
  (filterSpans (allMatches (rulerPatterns patterns) toks)).filterMap fun ent =>
    if (patterns.find? fun tp => decide (tp.1 = lowerChars ent.1)).isSome
    then some
      { text := spanText text toks ent.2.1 ent.2.2,
        label := ent.1,
        start := tokStart toks ent.2.1,
        endPos := tokEnd toks (ent.2.2 - 1),
        description := get_entity_description patterns ent.1
          (spanText text toks ent.2.1 ent.2.2) }
    else none

/-- One match dict returned by `StatPatternMatcher.find_matches`; `start`
and `endPos` are the token indices the code stores there. -/
structure MatchRow where
  pattern_type : List Char
  text : List Char
  start : Nat
  endPos : Nat
  description : List Char
deriving DecidableEq, Repr

/-- The body of the result-building loop of `find_matches`: recover the
type as `pattern_id.split('_')[0]` (a `KeyError` when that is not a dict
key), the pattern index as `int(pattern_id.split('_')[-1])`, and index the
type's pattern list for the description. -/
def rowOf (patterns : List (List Char × List PatternData))
    (text : List Char) (toks : List Token) (m : List Char × Nat × Nat) :
    Except (List Char) MatchRow :=
  match patterns.find? fun tp => decide (tp.1 = headSplit m.1) with
  | none => .error (String.toList "KeyError")
  | some tp =>
    match charsToNat? (lastSplit m.1) with
    | none => .error (String.toList "ValueError")
    | some idx =>
      match tp.2.get? idx with
      | none => .error (String.toList "IndexError")
      | some pd =>
        .ok { pattern_type := headSplit m.1,
              text := spanText text toks m.2.1 m.2.2,
              start := m.2.1,
              endPos := m.2.2,
              description := pd.description }

/-- Sequentialize a fallible map, stopping at the first error — the
Python loop in which an uncaught exception aborts the whole call. -/
def mapExcept {α β : Type} (f : α → Except (List Char) β) :
    List α → Except (List Char) (List β)
  | [] => .ok []
  | x :: xs =>
    match f x with
    | .error e => .error e
    | .ok y =>
      match mapExcept f xs with
      | .error e => .error e
      | .ok ys => .ok (y :: ys)

/-- `StatPatternMatcher.find_matches`: tokenize, collect every matcher
match, and build one result dict per match. -/
def find_matches (patterns : List (List Char × List PatternData))
    (text : List Char) : Except (List Char) (List MatchRow) :=
  mapExcept (rowOf patterns text (tokenize text))
    (allMatches (statMatcherRules patterns) (tokenize text))

/-- Two single-pattern types whose rules overlap on the middle token of
`x y z`. -/
def patternsC5 : List (List Char × List PatternData) :=
  [(String.toList "a",
    [⟨[⟨.lower (String.toList "x"), .one⟩, ⟨.lower (String.toList "y"), .one⟩],
      String.toList "da"⟩]),
   (String.toList "b",
    [⟨[⟨.lower (String.toList "y"), .one⟩, ⟨.lower (String.toList "z"), .one⟩],
      String.toList "db"⟩])]

/-- A rule set whose single type name contains an underscore; it loads
and compiles fine. -/
def patternsUS : List (List Char × List PatternData) :=
  [(String.toList "effect_size",
    [⟨[⟨.lower (String.toList "x"), .one⟩], String.toList "d"⟩])]

/-- A single rule matching the token `bb`. -/
def patternsTok : List (List Char × List PatternData) :=
  [(String.toList "t",
    [⟨[⟨.lower (String.toList "bb"), .one⟩], String.toList "d"⟩])]

/-- One effect dict as written by `process_corpus` into the enriched
record (`endPos` models the Python `end` key). -/
structure EffectOut where
  etype : List Char
  value : List Char
  description : Option (List Char)
  start : Nat
  endPos : Nat
deriving DecidableEq, Repr

/-- The per-entity to per-effect field renaming in `process_corpus`. -/
def entityToEffect (r : EntityRow) : EffectOut :=
  ⟨r.label, r.text, r.description, r.start, r.endPos⟩

/-- One bibliographic record: the fields `process_corpus` reads or writes.
`stressors` is whatever the upstream weak-labeling stage may have stored
(`none` when the input record has no such key); `effects` is written by
`process_corpus`. -/
structure CorpusDoc where
  doi : List Char
  title : List Char
  abstractText : List Char
  stressors : Option (List (List Char))
  effects : Option (List EffectOut)
deriving DecidableEq, Repr

/-- The per-file outcome inside the `process_corpus` loop. -/
inductive DocResult : Type
  | emitted : CorpusDoc → DocResult
  | noRecord : DocResult
  | emptyText : DocResult
deriving DecidableEq, Repr

/-- The body of the `process_corpus` loop for one `(filename, text)`
document: decode the filename to a DOI, look the record up, skip unlinked
or whitespace-only documents, otherwise run the NER and attach the
effects. -/
def processFile (patterns : List (List Char × List PatternData))
    (records : List (List Char × CorpusDoc))
    (file : List Char × List Char) : DocResult :=
  match records.find? fun r => decide (r.1 = (get_doi_from_filename file.1).1) with
  | none => .noRecord
  | some r =>
    if file.2.all Char.isWhitespace then .emptyText
    else .emitted
      { r.2 with effects := some ((get_entities patterns file.2).map entityToEffect) }

/-- The per-file loop of `process_corpus`: stream over the text files in
order, emit each enriched record immediately (the output stream keeps the
file order), and count `processed` / `skipped_no_record` / `skipped_empty`. -/
def corpusLoop (patterns : List (List Char × List PatternData))
    (records : List (List Char × CorpusDoc)) :
    List (List Char × List Char) → List CorpusDoc × Nat × Nat × Nat
  | [] => ([], 0, 0, 0)
  | f :: fs =>
    let rest := corpusLoop patterns records fs
    match processFile patterns records f with
    | .emitted d => (d :: rest.1, rest.2.1 + 1, rest.2.2.1, rest.2.2.2)
    | .noRecord => (rest.1, rest.2.1, rest.2.2.1 + 1, rest.2.2.2)
    | .emptyText => (rest.1, rest.2.1, rest.2.2.1, rest.2.2.2 + 1)

/-- `EffectSizeNER.verify_patterns`: true exactly when the entity ruler
holds at least one compiled pattern (`not ruler.patterns` otherwise). -/
def verify_patterns (patterns : List (List Char × List PatternData)) : Bool :=
  !(rulerPatterns patterns).isEmpty

/-- `src/enrich_corpus.py` `process_corpus`: abort before touching any file
when `verify_patterns` fails (`none` models the early `return` after the
`Failed to load patterns properly` log), otherwise run the streaming
per-file loop. -/
def process_corpus (patterns : List (List Char × List PatternData))
    (records : List (List Char × CorpusDoc))
    (files : List (List Char × List Char)) :
    Option (List CorpusDoc × Nat × Nat × Nat) :=
  if verify_patterns patterns then some (corpusLoop patterns records files)
  else none

/-- A concrete record for the corpus-linking statements. -/
def recX : CorpusDoc :=
  ⟨String.toList "10.1/x", String.toList "t", String.toList "", none, none⟩

lemma splitFirst_eq_none_iff {c : Char} {l : List Char} :
    splitFirst c l = none ↔ c ∉ l := by
  induction l with
  | nil => simp [splitFirst]
  | cons x xs ih =>
    by_cases hx : x = c
    · subst hx; simp [splitFirst]
    · simp [splitFirst, hx, ih, Ne.symm hx]

lemma splitFirst_append {c : Char} {p rest : List Char} (h : c ∉ p) :
    splitFirst c (p ++ c :: rest) = some (p, rest) := by
  induction p with
  | nil => simp [splitFirst]
  | cons x xs ih =>
    simp only [List.mem_cons, not_or] at h
    simp [splitFirst, Ne.symm h.1, ih h.2]

lemma splitFirst_eq_some {c : Char} {l p s : List Char}
    (h : splitFirst c l = some (p, s)) : l = p ++ c :: s ∧ c ∉ p := by
  induction l generalizing p s with
  | nil => simp [splitFirst] at h
  | cons x xs ih =>
    by_cases hx : x = c
    · subst hx
      simp only [splitFirst, if_pos rfl, Option.some.injEq, Prod.mk.injEq] at h
      obtain ⟨h1, h2⟩ := h
      simp
    · simp only [splitFirst, if_neg hx, Option.map_eq_some'] at h
      obtain ⟨⟨a, b⟩, hsplit, heq⟩ := h
      obtain ⟨hl, hnotin⟩ := ih hsplit
      simp only [Prod.mk.injEq] at heq
      obtain ⟨h1, h2⟩ := heq
      subst h1
      subst h2
      refine ⟨by rw [hl]; rfl, ?_⟩
      simp only [List.mem_cons, not_or]
      exact ⟨fun hc => hx hc.symm, hnotin⟩

lemma pyReplace_eq_self {a b : Char} {l : List Char} (h : a ∉ l) :
    pyReplace a b l = l := by
  induction l with
  | nil => rfl
  | cons x xs ih =>
    simp only [List.mem_cons, not_or] at h
    simp only [pyReplace, List.map_cons] at ih ⊢
    rw [if_neg (Ne.symm h.1), ih h.2]

lemma pyReplace_undo {l : List Char} (h : '_' ∉ l) :
    pyReplace '_' '/' (pyReplace '/' '_' l) = l := by
  induction l with
  | nil => rfl
  | cons x xs ih =>
    simp only [List.mem_cons, not_or] at h
    simp only [pyReplace, List.map_cons] at ih ⊢
    refine congrArg₂ List.cons ?_ (ih h.2)
    by_cases hx : x = '/'
    · simp [hx]
    · simp [hx, Ne.symm h.1]

lemma pyReplace_eq_of_no_underscore {l m : List Char} (hm : '_' ∉ m)
    (h : pyReplace '/' '_' l = m) : l = m := by
  induction l generalizing m with
  | nil => simpa [pyReplace] using h
  | cons x xs ih =>
    simp only [pyReplace, List.map_cons] at h
    cases m with
    | nil => simp at h
    | cons y ys =>
      simp only [List.mem_cons, not_or] at hm
      simp only [List.cons.injEq] at h
      have hx : x = y := by
        by_cases hslash : x = '/'
        · exact absurd (by rw [← h.1]; simp [hslash] : y = '_') (Ne.symm hm.1)
        · rw [← h.1]; simp [hslash]
      rw [hx, ih hm.2 h.2]

lemma suffix_pyReplace_iff {m l : List Char} (hm : '_' ∉ m)
    (hfix : pyReplace '/' '_' m = m) :
    m <:+ pyReplace '/' '_' l ↔ m <:+ l := by
  constructor
  · rintro ⟨t, ht⟩
    simp only [pyReplace] at ht
    obtain ⟨l₁, l₂, rfl, h₁, h₂⟩ := List.map_eq_append_iff.mp ht.symm
    exact ⟨l₁, by rw [pyReplace_eq_of_no_underscore hm h₂]⟩
  · rintro ⟨t, rfl⟩
    refine ⟨pyReplace '/' '_' t, ?_⟩
    simp only [pyReplace, List.map_append] at hfix ⊢
    rw [hfix]

lemma isInfix_pyReplace {m l : List Char} (hm : '_' ∉ m)
    (h : m <:+: pyReplace '/' '_' l) : m <:+: l := by
  obtain ⟨a, b, hab⟩ := h
  have hab' : List.map (fun c => if c = '/' then '_' else c) l = a ++ (m ++ b) := by
    simpa [pyReplace, List.append_assoc] using hab.symm
  obtain ⟨l₁, l₂, rfl, h₁, h₂⟩ := List.map_eq_append_iff.mp hab'
  obtain ⟨l₃, l₄, rfl, h₃, h₄⟩ := List.map_eq_append_iff.mp h₂
  have : l₃ = m := pyReplace_eq_of_no_underscore hm h₃
  exact ⟨l₁, l₄, by rw [this, List.append_assoc]⟩

lemma not_specialCase_of_markers {s : List Char}
    (h : ∀ m ∈ markersList, ¬ m <:+: s) :
    ¬ specialCase (pyReplace '/' '_' s) := by
  have hm : ∀ m ∈ markersList, '_' ∉ m := by decide
  have transfer : ∀ m ∈ markersList, ¬ m <:+: pyReplace '/' '_' s :=
    fun m hmem hinf => h m hmem (isInfix_pyReplace (hm m hmem) hinf)
  intro hsc
  rcases hsc with h1 | ⟨h2, _⟩ | h3 | h4 | h5 | h6
  · exact transfer _ (by decide) h1
  · exact transfer _ (by decide) h2
  · exact transfer _ (by decide) h3
  · exact transfer _ (by decide) h4
  · exact transfer _ (by decide) h5
  · exact transfer _ (by decide) h6

/-- C1, counterexample: the DOI `10.1234/a_b` has suffix `a_b`, which
contains none of the exception markers, yet the round trip through
`doi_to_filename` and `filename_to_doi` does not return it: the `_` of
the original suffix comes back as `/`. -/
theorem c1_counterexample :
    (∀ m ∈ markersList, ¬ m <:+: doiSuffix (String.toList "10.1234/a_b")) ∧
    filename_to_doi (doi_to_filename (String.toList "10.1234/a_b")) ≠
      String.toList "10.1234/a_b" := by
  decide

/-- C1, amended: for every DOI that contains no `_`, does not end in
`.txt`, and whose suffix (the part after the first `/`) contains none of
the decoder's exception markers, `filename_to_doi (doi_to_filename doi)`
returns the DOI unchanged. -/
theorem c1_roundtrip (doi : List Char) (h1 : '_' ∉ doi)
    (h2 : ¬ (String.toList ".txt") <:+ doi)
    (h3 : ∀ m ∈ markersList, ¬ m <:+: doiSuffix doi) :
    filename_to_doi (doi_to_filename doi) = doi := by
  have hfix : pyReplace '/' '_' (String.toList ".txt") = String.toList ".txt" := by decide
  have hnotxt : ¬ (String.toList ".txt") <:+ doi_to_filename doi := by
    rw [doi_to_filename, suffix_pyReplace_iff (by decide) hfix]
    exact h2
  have hstrip : stripTxt (doi_to_filename doi) = doi_to_filename doi := by
    rw [stripTxt, if_neg hnotxt]
  cases hsplit : splitFirst '/' doi with
  | none =>
    have hslash : '/' ∉ doi := splitFirst_eq_none_iff.mp hsplit
    have henc : doi_to_filename doi = doi := pyReplace_eq_self hslash
    rw [henc] at hstrip ⊢
    rw [filename_to_doi, hstrip, splitFirst_eq_none_iff.mpr h1]
  | some ps =>
    obtain ⟨p, s⟩ := ps
    obtain ⟨hdoi, hp⟩ := splitFirst_eq_some hsplit
    have hus : '_' ∉ s := fun hmem => h1 (by rw [hdoi]; simp [hmem])
    have hup : '_' ∉ p := fun hmem => h1 (by rw [hdoi]; simp [hmem])
    have hsfx : doiSuffix doi = s := by rw [doiSuffix, hsplit]; rfl
    rw [hsfx] at h3
    have henc : doi_to_filename doi = p ++ '_' :: pyReplace '/' '_' s := by
      have hpp : pyReplace '/' '_' p = p := pyReplace_eq_self hp
      simp only [pyReplace] at hpp
      rw [hdoi, doi_to_filename]
      simp only [pyReplace, List.map_append, List.map_cons]
      rw [hpp]
      simp
    rw [filename_to_doi, hstrip, henc, splitFirst_append hup]
    simp only [if_neg (not_specialCase_of_markers h3), pyReplace_undo hus]
    rw [hdoi]

/-- C1 witness: a concrete DOI satisfying the amended hypotheses
round-trips through encode and decode. -/
theorem c1_roundtrip_witness :
    filename_to_doi (doi_to_filename (String.toList "10.3755/jcrs.20.89")) =
      String.toList "10.3755/jcrs.20.89" :=
  c1_roundtrip _ (by decide) (by decide) (by decide)

/-- C9, counterexample: for the key `abc`, which contains no `_`,
`get_doi_from_filename` does log the malformed-input warning but does not
return the key unchanged: it first strips the last four characters
unconditionally (here leaving the empty string), while the codec decoder
`filename_to_doi` returns such keys unchanged but has no logging at all. -/
theorem c9_counterexample :
    '_' ∉ String.toList "abc" ∧
    (get_doi_from_filename (String.toList "abc")).2 = true ∧
    (get_doi_from_filename (String.toList "abc")).1 ≠ String.toList "abc" := by
  decide

/-- C9, amended: for every key without `_`, `filename_to_doi` returns the
key unchanged apart from stripping a trailing `.txt` (and emits no warning,
having no logging), while `get_doi_from_filename` returns the key with its
last four characters removed and emits the malformed-input warning. -/
theorem c9_no_underscore (key : List Char) (h : '_' ∉ key) :
    filename_to_doi key = stripTxt key ∧
    get_doi_from_filename key = (key.take (key.length - 4), true) := by
  have htake : '_' ∉ key.take (key.length - 4) :=
    fun hmem => h (List.take_subset _ _ hmem)
  have hstrip : '_' ∉ stripTxt key := by
    rw [stripTxt]
    split
    · exact htake
    · exact h
  constructor
  · rw [filename_to_doi, splitFirst_eq_none_iff.mpr hstrip]
  · rw [get_doi_from_filename, splitFirst_eq_none_iff.mpr htake]

/-- C9 witness: the amended statement evaluated at the key `abc.txt`. -/
theorem c9_no_underscore_witness :
    filename_to_doi (String.toList "abc.txt") = stripTxt (String.toList "abc.txt") ∧
    get_doi_from_filename (String.toList "abc.txt") =
      ((String.toList "abc.txt").take ((String.toList "abc.txt").length - 4), true) :=
  c9_no_underscore _ (by decide)

/-- C3, counterexample: with a pool of 3 effects and `n = 10` the top-up
draw asks `random.sample` for 7 of 3 elements and raises instead of
returning fewer rows; with a pool of 6 effects and `n = 10` the function
returns exactly 10 rows, topping up from the whole pool and duplicating
already-selected effects. -/
theorem c3_counterexample :
    (effects3.length < 10 ∧ okOf (sample_effects takePick effects3 10) = none) ∧
    (effects6.length < 10 ∧
      okOf (sample_effects takePick effects6 10) =
        some [⟨String.toList "A", 0⟩, ⟨String.toList "A", 1⟩,
              ⟨String.toList "A", 2⟩, ⟨String.toList "A", 3⟩,
              ⟨String.toList "A", 4⟩, ⟨String.toList "A", 5⟩,
              ⟨String.toList "A", 0⟩, ⟨String.toList "A", 1⟩,
              ⟨String.toList "A", 2⟩, ⟨String.toList "A", 3⟩] ∧
      ¬ ([⟨String.toList "A", 0⟩, ⟨String.toList "A", 1⟩,
          ⟨String.toList "A", 2⟩, ⟨String.toList "A", 3⟩,
          ⟨String.toList "A", 4⟩, ⟨String.toList "A", 5⟩,
          ⟨String.toList "A", 0⟩, ⟨String.toList "A", 1⟩,
          ⟨String.toList "A", 2⟩, ⟨String.toList "A", 3⟩] : List EffectRec).Nodup) := by
  decide

/-- C3, amended: whenever `n` does not exceed the pool size the sampler
succeeds and returns exactly `n` rows (per-type draws of
`min(max(1, floor(n * group / all)), group)` rows, then a top-up drawn from
the whole pool, then a final draw of `n` of the accumulated rows), for any
draw function honouring the `random.sample` size contract. -/
theorem c3_sample_ok (pick : List EffectRec → Nat → List EffectRec)
    (hpick : ∀ l k, k ≤ l.length → (pick l k).length = k)
    (effects : List EffectRec) (n : Nat) (hn : n ≤ effects.length) :
    ∃ rows, sample_effects pick effects n = .ok rows ∧ rows.length = n := by
  have hgroups : ∀ groups, ∃ s,
      perTypeDraws pick effects.length n groups = .ok s := by
    intro groups
    induction groups with
    | nil => exact ⟨[], rfl⟩
    | cons tg rest ih =>
      obtain ⟨s, hs⟩ := ih
      refine ⟨pick tg.2 (min (max 1 (n * tg.2.length / effects.length)) tg.2.length) ++ s, ?_⟩
      obtain ⟨t, g⟩ := tg
      simp only [perTypeDraws, pySample, if_pos (Nat.min_le_right _ _), hs]
  obtain ⟨s, hs⟩ := hgroups (groupByType effects)
  by_cases hlt : s.length < n
  · have htop : n - s.length ≤ effects.length := le_trans (Nat.sub_le _ _) hn
    have hlen2 : (s ++ pick effects (n - s.length)).length = n := by
      simp [hpick effects (n - s.length) htop]
      omega
    refine ⟨pick (s ++ pick effects (n - s.length)) n, ?_, ?_⟩
    · simp only [sample_effects, hs, if_pos hlt, pySample, if_pos htop,
        if_pos (le_of_eq hlen2.symm)]
    · exact hpick _ _ (le_of_eq hlen2.symm)
  · refine ⟨pick s n, ?_, ?_⟩
    · simp only [sample_effects, hs, if_neg hlt, pySample,
        if_pos (Nat.le_of_not_lt hlt)]
    · exact hpick _ _ (Nat.le_of_not_lt hlt)

/-- C3 witness: the amended statement at a concrete pool of 3 effects with
`n = 2` and the draw-first generator state. -/
theorem c3_sample_ok_witness :
    ∃ rows, sample_effects takePick effects3 2 = .ok rows ∧ rows.length = 2 :=
  c3_sample_ok takePick
    (fun l k hk => by simp [takePick, List.length_take]; omega)
    effects3 2 (by decide)

/-- C4: `sample_effects` takes no seed; its draws come from the ambient
state of Python's global `random` generator, so two calls with identical
inputs but different ambient generator states return different rows. -/
theorem c4_global_rng_dependence :
    okOf (sample_effects takePick [⟨String.toList "A", 0⟩, ⟨String.toList "A", 1⟩] 1) ≠
    okOf (sample_effects dropPick [⟨String.toList "A", 0⟩, ⟨String.toList "A", 1⟩] 1) := by
  decide

/-- C7: tagging empty text yields the empty category list, and for every
text the tagger returns the lexicographically sorted, duplicate-free list
of exactly the categories with at least one phrase match, each exactly
once (the list is duplicate-free), however many phrases or occurrences
produced it.  The hypothesis is
the spec's rule-set invariant that every compiled phrase has a non-empty
token sequence. -/
theorem c7_tag_properties (taxonomy : List (List Char × List (List Char)))
    (hph : ∀ e ∈ load_taxonomy taxonomy, ∀ ph ∈ e.2, phraseTokens ph ≠ []) :
    tag taxonomy [] = [] ∧
    ∀ text, (tag taxonomy text).Sorted (· ≤ ·) ∧
      (tag taxonomy text).Nodup ∧
      (∀ c, c ∈ tag taxonomy text ↔
        ∃ m ∈ phraseMatches (load_taxonomy taxonomy) (docTokens text),
          m.1 = c) := by
  constructor
  · have hm : phraseMatches (load_taxonomy taxonomy) (docTokens []) = [] := by
      rw [List.eq_nil_iff_forall_not_mem]
      intro m hmem
      simp only [phraseMatches, List.mem_flatMap, List.mem_filterMap] at hmem
      obtain ⟨e, he, ph, hphm, p, hp, hcond⟩ := hmem
      split_ifs at hcond with hcnd
      have hle : p + (phraseTokens ph).length ≤ 0 := hcnd.2
      exact hph e he ph hphm (List.eq_nil_of_length_eq_zero (by omega))
    rw [tag, tag_text, hm]
    rfl
  · intro text
    have hnd : (tag taxonomy text).Nodup := by
      rw [tag, tag_text]
      exact (List.perm_insertionSort _ _).symm.nodup (List.nodup_dedup _)
    refine ⟨?_, hnd, ?_⟩
    · rw [tag, tag_text]
      exact List.sorted_insertionSort _ _
    · intro c
      rw [tag, tag_text, (List.perm_insertionSort _ _).mem_iff, List.mem_dedup,
        List.mem_map]

/-- C7 witness: the tagger properties at the concrete two-category
taxonomy `tax0`. -/
theorem c7_tag_properties_witness :
    tag tax0 [] = [] ∧
    ∀ text, (tag tax0 text).Sorted (· ≤ ·) ∧
      (tag tax0 text).Nodup ∧
      (∀ c, c ∈ tag tax0 text ↔
        ∃ m ∈ phraseMatches (load_taxonomy tax0) (docTokens text), m.1 = c) :=
  c7_tag_properties tax0 (by decide)

/-- C5, counterexample: over `x y z`, the rule of type `b` matches the
window of tokens 1-3 and is part of the compiled rule set, yet
`get_entities` reports only the entity of type `a` (char span 0-3): the
entity ruler's `doc.ents` resolves the overlap instead of keeping both. -/
theorem c5_counterexample :
    seqMatch [⟨.lower (String.toList "y"), .one⟩, ⟨.lower (String.toList "z"), .one⟩]
        (extractSpan (tokenize (String.toList "x y z")) 1 3) = true ∧
    (upperChars (String.toList "b"),
      [⟨.lower (String.toList "y"), .one⟩, ⟨.lower (String.toList "z"), .one⟩]) ∈
      rulerPatterns patternsC5 ∧
    (get_entities patternsC5 (String.toList "x y z")).map
        (fun r => (r.label, r.start, r.endPos)) =
      [(String.toList "A", 0, 3)] := by
  decide

/-- C6, counterexample: the rule set `patternsUS`, whose single type name
`effect_size` contains an underscore, loads and compiles fine, and the
matcher finds exactly one match on the text `x`; yet `find_matches` fails:
`pattern_id.split('_')[0]` recovers `effect` and the dict lookup raises
`KeyError`. -/
theorem c6_counterexample :
    (allMatches (statMatcherRules patternsUS) (tokenize (String.toList "x"))).length = 1 ∧
    okOf (find_matches patternsUS (String.toList "x")) = none := by
  decide

/-- C8, counterexample: `find_matches` stores token indices in `start` and
`end`: on `aa bb` the single match has `start = 1`, `end = 2` and text
`bb`, but characters 1-2 of the source are `a` — the offsets do not
delimit the matched span in the source text. -/
theorem c8_counterexample :
    okOf (find_matches patternsTok (String.toList "aa bb")) =
      some [⟨String.toList "t", String.toList "bb", 1, 2, String.toList "d"⟩] ∧
    ((String.toList "aa bb").drop 1).take (2 - 1) ≠ String.toList "bb" := by
  decide

/-- C2, counterexample: with a rule set that passes the `verify_patterns`
load check, `process_corpus` emits the linked record with only `effects`
attached; the record's `stressors` stay absent even though the taxonomy
tagger applied to the same document text would produce a non-empty
category list — the tagger is not run by `process_corpus` (it belongs to
the separate upstream `weak_label` pass). -/
theorem c2_counterexample :
    verify_patterns patternsC5 = true ∧
    process_corpus patternsC5 [(String.toList "10.1/x", recX)]
        [(String.toList "10.1_x.txt", String.toList "bleaching x y")] =
      some ([{ recX with
        effects := some [⟨String.toList "A", String.toList "x y",
          some (String.toList "da"), 10, 13⟩] }], 1, 0, 0) ∧
    ({ recX with
      effects := some [(⟨String.toList "A", String.toList "x y",
        some (String.toList "da"), 10, 13⟩ : EffectOut)] }).stressors = none ∧
    tag [(String.toList "bleaching", [String.toList "bleaching"])]
        (String.toList "bleaching x y") = [String.toList "bleaching"] := by
  decide

/-- C10: every entity `get_entities` returns carries the description of
the first pattern configured under its (lowercased) type, whatever pattern
of that type produced the match and whatever the matched text was. -/
theorem c10_description_is_first (patterns : List (List Char × List PatternData))
    (text : List Char) :
    ∀ row ∈ get_entities patterns text, ∀ tp,
      (patterns.find? fun e => decide (e.1 = lowerChars row.label)) = some tp →
      ∀ pd rest, tp.2 = pd :: rest →
      row.description = some pd.description := by
  intro row hrow tp hfind pd rest htp
  simp only [get_entities, List.mem_filterMap] at hrow
  obtain ⟨ent, hent, hcond⟩ := hrow
  split_ifs at hcond with hg
  simp only [Option.some.injEq] at hcond
  subst hcond
  simp only [get_entity_description] at hfind ⊢
  rw [hfind]
  show Option.map (fun x => x.description) tp.2.head? = some pd.description
  rw [htp]
  rfl

lemma takeWhile_append_cons {p : Char → Bool} {xs : List Char} {y : Char}
    {ys : List Char} (hxs : ∀ x ∈ xs, p x = true) (hy : p y = false) :
    (xs ++ y :: ys).takeWhile p = xs := by
  induction xs with
  | nil => simp [List.takeWhile_cons, hy]
  | cons a as ih =>
    have ha : p a = true := hxs a (List.mem_cons_self a as)
    simp only [List.cons_append, List.takeWhile_cons, ha, if_pos]
    rw [ih fun x hx => hxs x (List.mem_cons_of_mem a hx)]

lemma headSplit_concat {ty ds : List Char} (hty : '_' ∉ ty) :
    headSplit (ty ++ '_' :: ds) = ty := by
  refine takeWhile_append_cons (fun x hx => ?_) (by simp)
  simp only [decide_eq_true_eq]
  exact ne_of_mem_of_not_mem hx hty

lemma lastSplit_concat {ty ds : List Char} (hds : '_' ∉ ds) :
    lastSplit (ty ++ '_' :: ds) = ds := by
  rw [lastSplit, List.reverse_append, List.reverse_cons, List.append_assoc,
    List.singleton_append]
  rw [takeWhile_append_cons (fun x hx => ?_) (by simp), List.reverse_reverse]
  simp only [decide_eq_true_eq]
  exact ne_of_mem_of_not_mem (List.mem_reverse.mp hx) hds

lemma natToCharsAux_zero (fuel : Nat) : natToCharsAux fuel 0 = [] := by
  cases fuel <;> simp [natToCharsAux]

lemma natToCharsAux_digits :
    ∀ fuel n, n < fuel → ∀ c ∈ natToCharsAux fuel n, c.isDigit = true := by
  intro fuel
  induction fuel with
  | zero => intro n hn; omega
  | succ fuel ih =>
    intro n hn c hc
    rw [natToCharsAux] at hc
    split_ifs at hc with h0
    · cases hc
    · rw [List.mem_append] at hc
      rcases hc with hc | hc
      · have hq : n / 10 < fuel :=
          lt_of_lt_of_le (Nat.div_lt_self (Nat.pos_of_ne_zero h0) (by norm_num))
            (Nat.lt_succ_iff.mp hn)
        exact ih (n / 10) hq c hc
      · have hd : n % 10 < 10 := Nat.mod_lt n (by norm_num)
        simp only [List.mem_singleton] at hc
        subst hc
        interval_cases h : n % 10 <;> decide

lemma digit_ne_underscore {c : Char} (h : c.isDigit = true) : c ≠ '_' := by
  intro heq
  rw [heq] at h
  exact absurd h (by decide)

lemma natToChars_digits (n : Nat) : ∀ c ∈ natToChars n, c.isDigit = true := by
  rw [natToChars]
  split_ifs with h0
  · intro c hc
    simp only [List.mem_singleton] at hc
    subst hc
    decide
  · exact natToCharsAux_digits (n + 1) n (Nat.lt_succ_self n)

lemma natToChars_no_underscore (n : Nat) : '_' ∉ natToChars n :=
  fun h => digit_ne_underscore (natToChars_digits n '_' h) rfl

lemma natToCharsAux_val :
    ∀ fuel n, n < fuel → n ≠ 0 → ∀ a : Nat,
      (natToCharsAux fuel n).foldl (fun x c => x * 10 + (c.toNat - 48)) a =
        a * 10 ^ (natToCharsAux fuel n).length + n := by
  intro fuel
  induction fuel with
  | zero => intro n hn; omega
  | succ fuel ih =>
    intro n hn h0 a
    have hd : n % 10 < 10 := Nat.mod_lt n (by norm_num)
    have hdc : (Char.ofNat (48 + n % 10)).toNat = 48 + n % 10 := by
      interval_cases h : n % 10 <;> decide
    rw [natToCharsAux, if_neg h0]
    by_cases hq : n / 10 = 0
    · rw [hq, natToCharsAux_zero]
      simp only [List.nil_append, List.foldl_cons, List.foldl_nil,
        List.length_singleton, pow_one, hdc]
      omega
    · have hqf : n / 10 < fuel :=
        lt_of_lt_of_le (Nat.div_lt_self (Nat.pos_of_ne_zero h0) (by norm_num))
          (Nat.lt_succ_iff.mp hn)
      rw [List.foldl_append, ih (n / 10) hqf hq a]
      have hnm : 10 * (n / 10) + n % 10 = n := Nat.div_add_mod n 10
      simp only [List.foldl_cons, List.foldl_nil, List.length_append,
        List.length_singleton, hdc]
      rw [pow_succ]
      ring_nf
      omega

lemma charsToNat_natToChars (n : Nat) : charsToNat? (natToChars n) = some n := by
  by_cases h0 : n = 0
  · subst h0; decide
  · have hne : natToChars n ≠ [] := by
      rw [natToChars, if_neg h0, natToCharsAux, if_neg h0]
      exact List.append_ne_nil_of_right_ne_nil _ (by simp)
    have hdig : (natToChars n).all Char.isDigit = true :=
      List.all_eq_true.mpr (natToChars_digits n)
    rw [charsToNat?, if_pos]
    · rw [natToChars, if_neg h0,
        natToCharsAux_val (n + 1) n (Nat.lt_succ_self n) h0 0]
      simp
    · simp only [Bool.and_eq_true, Bool.not_eq_true']
      exact ⟨by rwa [Bool.eq_false_iff, Ne, List.isEmpty_iff], hdig⟩

lemma find?_key_nodup {β : Type} {l : List (List Char × β)} {k : List Char}
    {v : β} (hnd : (l.map Prod.fst).Nodup) (hmem : (k, v) ∈ l) :
    (l.find? fun e => decide (e.1 = k)) = some (k, v) := by
  induction l with
  | nil => cases hmem
  | cons x xs ih =>
    rw [List.map_cons, List.nodup_cons] at hnd
    rcases List.mem_cons.mp hmem with rfl | hmem'
    · exact List.find?_cons_of_pos _ (by simp)
    · have hx : ¬ decide (x.1 = k) = true := by
        simp only [decide_eq_true_eq]
        intro h
        refine hnd.1 ?_
        rw [h]
        exact List.mem_map_of_mem Prod.fst hmem'
      rw [@List.find?_cons_of_neg _ (fun e => decide (e.1 = k)) x xs hx]
      exact ih hnd.2 hmem'

lemma mapExcept_ok_forall {α β : Type} {f : α → Except (List Char) β}
    {l : List α} (h : ∀ x ∈ l, ∃ y, f x = Except.ok y) :
    ∃ ys, mapExcept f l = .ok ys := by
  induction l with
  | nil => exact ⟨[], rfl⟩
  | cons x xs ih =>
    obtain ⟨y, hy⟩ := h x (List.mem_cons_self x xs)
    obtain ⟨ys, hys⟩ := ih fun a ha => h a (List.mem_cons_of_mem x ha)
    exact ⟨y :: ys, by rw [mapExcept, hy, hys]⟩

lemma mapExcept_mem {α β : Type} {f : α → Except (List Char) β}
    {l : List α} {ys : List β} (h : mapExcept f l = .ok ys) :
    ∀ x ∈ l, ∃ y ∈ ys, f x = .ok y := by
  induction l generalizing ys with
  | nil => intro x hx; cases hx
  | cons a as ih =>
    intro x hx
    rw [mapExcept] at h
    rcases hfa : f a with e | y
    · rw [hfa] at h; exact Except.noConfusion h
    · rw [hfa] at h
      rcases hrec : mapExcept f as with e | ys'
      · rw [hrec] at h; exact Except.noConfusion h
      · rw [hrec] at h
        simp only [Except.ok.injEq] at h
        subst h
        rcases List.mem_cons.mp hx with rfl | hx'
        · exact ⟨y, List.mem_cons_self y ys', hfa⟩
        · obtain ⟨y', hy', hfy'⟩ := ih hrec x hx'
          exact ⟨y', List.mem_cons_of_mem y hy', hfy'⟩

lemma mem_allMatches_iff {rules : List (List Char × List TokenSpec)}
    {toks : List Token} {m : List Char × Nat × Nat} :
    m ∈ allMatches rules toks ↔
      ∃ pat, (m.1, pat) ∈ rules ∧ m.2.1 ≤ m.2.2 ∧ m.2.2 ≤ toks.length ∧
        seqMatch pat (extractSpan toks m.2.1 m.2.2) = true := by
  constructor
  · intro h
    simp only [allMatches, List.mem_flatMap, List.mem_map] at h
    obtain ⟨r, hr, se, hse, heq⟩ := h
    subst heq
    simp only [windowMatches, List.mem_flatMap, List.mem_filterMap,
      List.mem_range] at hse
    obtain ⟨s, hs, e, he, hcond⟩ := hse
    split_ifs at hcond with hc
    simp only [Option.some.injEq] at hcond
    subst hcond
    exact ⟨r.2, by rw [Prod.mk.eta]; exact hr, hc.1, hc.2.1, hc.2.2⟩
  · rintro ⟨pat, hr, hse, hlen, hmatch⟩
    simp only [allMatches, List.mem_flatMap, List.mem_map]
    refine ⟨(m.1, pat), hr, (m.2.1, m.2.2), ?_, by rw [Prod.mk.eta]⟩
    simp only [windowMatches, List.mem_flatMap, List.mem_filterMap, List.mem_range]
    exact ⟨m.2.1, by omega, m.2.2, by omega, by rw [if_pos ⟨hse, hlen, hmatch⟩]⟩

lemma mem_insertDesc {x y : List Char × Nat × Nat}
    {l : List (List Char × Nat × Nat)} (h : y ∈ insertDesc x l) :
    y = x ∨ y ∈ l := by
  induction l with
  | nil => simpa [insertDesc] using h
  | cons a as ih =>
    rw [insertDesc] at h
    split_ifs at h
    · rcases List.mem_cons.mp h with rfl | h'
      · exact Or.inl rfl
      · exact Or.inr h'
    · rcases List.mem_cons.mp h with rfl | h'
      · exact Or.inr (List.mem_cons_self _ _)
      · rcases ih h' with rfl | h''
        · exact Or.inl rfl
        · exact Or.inr (List.mem_cons_of_mem _ h'')

lemma mem_sortSpansDesc {y : List Char × Nat × Nat}
    {l : List (List Char × Nat × Nat)} (h : y ∈ sortSpansDesc l) : y ∈ l := by
  induction l with
  | nil => simpa [sortSpansDesc] using h
  | cons a as ih =>
    rw [sortSpansDesc] at h
    rcases mem_insertDesc h with rfl | h'
    · exact List.mem_cons_self _ _
    · exact List.mem_cons_of_mem _ (ih h')

lemma mem_greedyFilter {y : List Char × Nat × Nat} :
    ∀ {l : List (List Char × Nat × Nat)} {seen : List Nat},
      y ∈ greedyFilter l seen → y ∈ l := by
  intro l
  induction l with
  | nil => intro seen h; simpa [greedyFilter] using h
  | cons a as ih =>
    intro seen h
    rw [greedyFilter] at h
    split_ifs at h
    · exact List.mem_cons_of_mem _ (ih h)
    · rcases List.mem_cons.mp h with rfl | h'
      · exact List.mem_cons_self _ _
      · exact List.mem_cons_of_mem _ (ih h')

lemma mem_insertByStart {x y : List Char × Nat × Nat}
    {l : List (List Char × Nat × Nat)} (h : y ∈ insertByStart x l) :
    y = x ∨ y ∈ l := by
  induction l with
  | nil => simpa [insertByStart] using h
  | cons a as ih =>
    rw [insertByStart] at h
    split_ifs at h
    · rcases List.mem_cons.mp h with rfl | h'
      · exact Or.inl rfl
      · exact Or.inr h'
    · rcases List.mem_cons.mp h with rfl | h'
      · exact Or.inr (List.mem_cons_self _ _)
      · rcases ih h' with rfl | h''
        · exact Or.inl rfl
        · exact Or.inr (List.mem_cons_of_mem _ h'')

lemma mem_sortByStart {y : List Char × Nat × Nat}
    {l : List (List Char × Nat × Nat)} (h : y ∈ sortByStart l) : y ∈ l := by
  induction l with
  | nil => simpa [sortByStart] using h
  | cons a as ih =>
    rw [sortByStart] at h
    rcases mem_insertByStart h with rfl | h'
    · exact List.mem_cons_self _ _
    · exact List.mem_cons_of_mem _ (ih h')

lemma filterSpans_subset {spans : List (List Char × Nat × Nat)}
    {y : List Char × Nat × Nat} (h : y ∈ filterSpans spans) : y ∈ spans :=
  List.dedup_subset spans (mem_sortSpansDesc (mem_greedyFilter (mem_sortByStart h)))

lemma mem_statMatcherRules {patterns : List (List Char × List PatternData)}
    {r : List Char × List TokenSpec} (h : r ∈ statMatcherRules patterns) :
    ∃ tp ∈ patterns, ∃ i pd, tp.2.get? i = some pd ∧
      r = (tp.1 ++ '_' :: natToChars i, pd.pattern) := by
  simp only [statMatcherRules, List.mem_flatMap, List.mem_map] at h
  obtain ⟨tp, htp, ie, hie, heq⟩ := h
  exact ⟨tp, htp, ie.1, ie.2, List.mem_enum_iff_get?.mp hie, heq.symm⟩

lemma rowOf_fields {patterns : List (List Char × List PatternData)}
    {text : List Char} {toks : List Token} {m : List Char × Nat × Nat}
    {row : MatchRow} (h : rowOf patterns text toks m = .ok row) :
    row.start = m.2.1 ∧ row.endPos = m.2.2 := by
  rw [rowOf] at h
  split at h
  · exact Except.noConfusion h
  · split at h
    · exact Except.noConfusion h
    · split at h
      · exact Except.noConfusion h
      · simp only [Except.ok.injEq] at h
        subst h
        exact ⟨rfl, rfl⟩

/-- C6, amended: for every rule set whose type names contain no `_` (and
with the distinct type names of a dict), scanning never fails:
`find_matches` returns a result list on every text, every internal lookup
in the result-building loop succeeding; `get_entities` is total
unconditionally. -/
theorem c6_scan_total (patterns : List (List Char × List PatternData))
    (hnd : (patterns.map Prod.fst).Nodup)
    (hty : ∀ tp ∈ patterns, '_' ∉ tp.1) (text : List Char) :
    ∃ rows, find_matches patterns text = .ok rows := by
  rw [find_matches]
  apply mapExcept_ok_forall
  intro m hm
  obtain ⟨pat, hrule, _, _, _⟩ := mem_allMatches_iff.mp hm
  obtain ⟨tp, htp, i, pd, hget, hid⟩ := mem_statMatcherRules hrule
  have hideq : m.1 = tp.1 ++ '_' :: natToChars i := congrArg Prod.fst hid
  have h1 : headSplit m.1 = tp.1 := by
    rw [hideq]; exact headSplit_concat (hty tp htp)
  have h2 : lastSplit m.1 = natToChars i := by
    rw [hideq]; exact lastSplit_concat (natToChars_no_underscore i)
  refine ⟨{ pattern_type := tp.1,
            text := spanText text (tokenize text) m.2.1 m.2.2,
            start := m.2.1, endPos := m.2.2,
            description := pd.description }, ?_⟩
  rw [rowOf, h1, find?_key_nodup hnd htp, h2, charsToNat_natToChars]
  simp only [hget]

/-- C6 witness: the amended statement at the underscore-free rule set
`patternsC5`. -/
theorem c6_scan_total_witness :
    ∃ rows, find_matches patternsC5 (String.toList "x y z") = .ok rows :=
  c6_scan_total patternsC5 (by decide) (by decide) (String.toList "x y z")

/-- C5, amended: `StatPatternMatcher.find_matches` reports one result per
matcher match, so whenever it returns (which the underscore-free rule sets
of C6 guarantee) every token window satisfying any compiled rule yields a
result row with that window's boundaries, overlaps included and
unresolved; `EffectSizeNER.get_entities`, by contrast, resolves overlaps
through the entity ruler (see the counterexample). -/
theorem c5_find_matches_all (patterns : List (List Char × List PatternData))
    (text : List Char) (rows : List MatchRow)
    (hok : find_matches patterns text = .ok rows) :
    ∀ id pat, (id, pat) ∈ statMatcherRules patterns →
      ∀ s e, s ≤ e → e ≤ (tokenize text).length →
        seqMatch pat (extractSpan (tokenize text) s e) = true →
        ∃ row ∈ rows, row.start = s ∧ row.endPos = e := by
  intro id pat hrule s e hse hel hm
  have hmem : (id, s, e) ∈ allMatches (statMatcherRules patterns) (tokenize text) :=
    mem_allMatches_iff.mpr ⟨pat, hrule, hse, hel, hm⟩
  rw [find_matches] at hok
  obtain ⟨row, hrow, hfr⟩ := mapExcept_mem hok _ hmem
  exact ⟨row, hrow, (rowOf_fields hfr).1, (rowOf_fields hfr).2⟩

/-- C5 witness: over `x y z` with the two overlapping single-pattern
rules, the rule `b_0` matching tokens 1-3 yields a result row with those
boundaries. -/
theorem c5_find_matches_all_witness :
    ∃ row ∈ [(⟨String.toList "a", String.toList "x y", 0, 2, String.toList "da"⟩ : MatchRow),
             ⟨String.toList "b", String.toList "y z", 1, 3, String.toList "db"⟩],
      row.start = 1 ∧ row.endPos = 3 :=
  c5_find_matches_all patternsC5 (String.toList "x y z") _ rfl
    (String.toList "b" ++ '_' :: natToChars 0)
    [⟨.lower (String.toList "y"), .one⟩, ⟨.lower (String.toList "z"), .one⟩]
    (by decide) 1 3 (by decide) (by decide) (by decide)

/-- C10 witness: the first-pattern description rule evaluated on the
entity of type `A` extracted from `x y z`. -/
theorem c10_description_is_first_witness :
    (⟨String.toList "x y", String.toList "A", 0, 3,
        some (String.toList "da")⟩ : EntityRow).description =
      some (⟨[⟨.lower (String.toList "x"), .one⟩, ⟨.lower (String.toList "y"), .one⟩],
        String.toList "da"⟩ : PatternData).description :=
  c10_description_is_first patternsC5 (String.toList "x y z")
    ⟨String.toList "x y", String.toList "A", 0, 3, some (String.toList "da")⟩
    (by decide)
    (String.toList "a",
      [⟨[⟨.lower (String.toList "x"), .one⟩, ⟨.lower (String.toList "y"), .one⟩],
        String.toList "da"⟩])
    (by decide)
    ⟨[⟨.lower (String.toList "x"), .one⟩, ⟨.lower (String.toList "y"), .one⟩],
      String.toList "da"⟩
    [] rfl

lemma tokenizeAux_bounds :
    ∀ (cs : List Char) (i : Nat) (acc : Option (Nat × List Char)),
      (∀ s w, acc = some (s, w) → s + w.length = i ∧ w ≠ []) →
      ∀ t ∈ tokenizeAux cs i acc,
        t.startChar < t.endChar ∧ t.endChar ≤ i + cs.length := by
  intro cs
  induction cs with
  | nil =>
    intro i acc hacc t ht
    cases acc with
    | none => simp [tokenizeAux] at ht
    | some sa =>
      obtain ⟨s, w⟩ := sa
      simp only [tokenizeAux, List.mem_singleton] at ht
      subst ht
      obtain ⟨hsw, hw⟩ := hacc s w rfl
      have hwl : 0 < w.length := List.length_pos_of_ne_nil hw
      exact ⟨show s < i by omega, show i ≤ i + ([] : List Char).length by simp⟩
  | cons c rest ih =>
    intro i acc hacc t ht
    cases acc with
    | none =>
      rw [tokenizeAux] at ht
      split_ifs at ht with hw
      · have := ih (i + 1) none (by intro s w h; cases h) t ht
        exact ⟨this.1, by simp only [List.length_cons]; omega⟩
      · have := ih (i + 1) (some (i, [c])) (by
          intro s w h
          simp only [Option.some.injEq, Prod.mk.injEq] at h
          obtain ⟨rfl, rfl⟩ := h
          simp) t ht
        exact ⟨this.1, by simp only [List.length_cons]; omega⟩
    | some sa =>
      obtain ⟨s, w⟩ := sa
      rw [tokenizeAux] at ht
      split_ifs at ht with hw
      · rcases List.mem_cons.mp ht with rfl | ht'
        · obtain ⟨hsw, hwne⟩ := hacc s w rfl
          have hwl : 0 < w.length := List.length_pos_of_ne_nil hwne
          exact ⟨show s < i by omega, show i ≤ i + (c :: rest).length from Nat.le_add_right i _⟩
        · have := ih (i + 1) none (by intro s' w' h; cases h) t ht'
          exact ⟨this.1, by simp only [List.length_cons]; omega⟩
      · have := ih (i + 1) (some (s, c :: w)) (by
          intro s' w' h
          simp only [Option.some.injEq, Prod.mk.injEq] at h
          obtain ⟨rfl, rfl⟩ := h
          obtain ⟨hsw, _⟩ := hacc s w rfl
          exact ⟨by simp only [List.length_cons]; omega, by simp⟩) t ht
        exact ⟨this.1, by simp only [List.length_cons]; omega⟩

lemma tokenize_bounds (text : List Char) :
    ∀ t ∈ tokenize text, t.startChar < t.endChar ∧ t.endChar ≤ text.length := by
  intro t ht
  have := tokenizeAux_bounds text 0 none (by intro s w h; cases h) t ht
  simpa using this

lemma tokenizeAux_pairwise :
    ∀ (cs : List Char) (i : Nat) (acc : Option (Nat × List Char)),
      (∀ s w, acc = some (s, w) → s ≤ i) →
      List.Pairwise (fun a b => a.startChar ≤ b.startChar) (tokenizeAux cs i acc) ∧
      ∀ t ∈ tokenizeAux cs i acc,
        (match acc with | none => i | some (s, _) => s) ≤ t.startChar := by
  intro cs
  induction cs with
  | nil =>
    intro i acc hacc
    cases acc with
    | none => simp [tokenizeAux]
    | some sa =>
      obtain ⟨s, w⟩ := sa
      simp [tokenizeAux]
  | cons c rest ih =>
    intro i acc hacc
    cases acc with
    | none =>
      rw [tokenizeAux]
      split_ifs with hw
      · obtain ⟨hp, hlb⟩ := ih (i + 1) none (by intro s w h; cases h)
        exact ⟨hp, fun t ht => le_trans (Nat.le_succ i) (hlb t ht)⟩
      · obtain ⟨hp, hlb⟩ := ih (i + 1) (some (i, [c])) (by
          intro s w h
          simp only [Option.some.injEq, Prod.mk.injEq] at h
          obtain ⟨rfl, rfl⟩ := h
          omega)
        exact ⟨hp, fun t ht => hlb t ht⟩
    | some sa =>
      obtain ⟨s, w⟩ := sa
      have hsi : s ≤ i := hacc s w rfl
      rw [tokenizeAux]
      split_ifs with hw
      · obtain ⟨hp, hlb⟩ := ih (i + 1) none (by intro s' w' h; cases h)
        constructor
        · rw [List.pairwise_cons]
          exact ⟨fun t ht => le_trans (le_trans hsi (Nat.le_succ i)) (hlb t ht), hp⟩
        · intro t ht
          rcases List.mem_cons.mp ht with rfl | ht'
          · exact le_refl s
          · exact le_trans (le_trans hsi (Nat.le_succ i)) (hlb t ht')
      · obtain ⟨hp, hlb⟩ := ih (i + 1) (some (s, c :: w)) (by
          intro s' w' h
          simp only [Option.some.injEq, Prod.mk.injEq] at h
          obtain ⟨rfl, rfl⟩ := h
          omega)
        exact ⟨hp, fun t ht => hlb t ht⟩

lemma tokenize_pairwise (text : List Char) :
    List.Pairwise (fun a b => a.startChar ≤ b.startChar) (tokenize text) :=
  (tokenizeAux_pairwise text 0 none (by intro s w h; cases h)).1

lemma tokStart_eq {toks : List Token} {i : Nat} (h : i < toks.length) :
    tokStart toks i = (toks.get ⟨i, h⟩).startChar := by
  rw [tokStart, List.headD_eq_head?, List.head?_drop, List.getElem?_eq_getElem h]
  rfl

lemma tokEnd_eq {toks : List Token} {i : Nat} (h : i < toks.length) :
    tokEnd toks i = (toks.get ⟨i, h⟩).endChar := by
  rw [tokEnd, List.headD_eq_head?, List.head?_drop, List.getElem?_eq_getElem h]
  rfl

/-- C8, amended: every entity returned by `EffectSizeNER.get_entities`
satisfies `0 <= start < end <= length(sourceText)` with
`sourceText[start:end]` equal to the entity text, provided no compiled
rule accepts the empty token window; `StatPatternMatcher.find_matches`
rows, by contrast, carry token indices in `start`/`end`, which do not
delimit the matched character span (see the counterexample). -/
theorem c8_span_invariant (patterns : List (List Char × List PatternData))
    (text : List Char)
    (hne : ∀ tp ∈ patterns, ∀ pd ∈ tp.2, seqMatch pd.pattern [] = false) :
    ∀ row ∈ get_entities patterns text,
      row.start < row.endPos ∧ row.endPos ≤ text.length ∧
      row.text = (text.drop row.start).take (row.endPos - row.start) := by
  intro row hrow
  simp only [get_entities, List.mem_filterMap] at hrow
  obtain ⟨ent, hent, hcond⟩ := hrow
  split_ifs at hcond with hg
  simp only [Option.some.injEq] at hcond
  subst hcond
  have hmem := filterSpans_subset hent
  obtain ⟨pat, hrule, hse, hlen, hmatch⟩ := mem_allMatches_iff.mp hmem
  have hpat : ∃ tp ∈ patterns, ∃ pd ∈ tp.2, pat = pd.pattern := by
    simp only [rulerPatterns, List.mem_flatMap, List.mem_map] at hrule
    obtain ⟨tp, htp, pd, hpd, heq⟩ := hrule
    exact ⟨tp, htp, pd, hpd, (congrArg Prod.snd heq).symm⟩
  have hslt : ent.2.1 < ent.2.2 := by
    rcases Nat.lt_or_ge ent.2.1 ent.2.2 with h | h
    · exact h
    · exfalso
      obtain ⟨tp, htp, pd, hpd, rfl⟩ := hpat
      have hnil : extractSpan (tokenize text) ent.2.1 ent.2.2 = [] := by
        have : ent.2.2 - ent.2.1 = 0 := by omega
        simp [extractSpan, this]
      rw [hnil, hne tp htp pd hpd] at hmatch
      exact Bool.noConfusion hmatch
  have he1 : ent.2.2 - 1 < (tokenize text).length := by omega
  have hs1 : ent.2.1 < (tokenize text).length := by omega
  have hband := tokenize_bounds text _ (List.get_mem (tokenize text) _ he1)
  refine ⟨?_, ?_, rfl⟩
  · show tokStart (tokenize text) ent.2.1 < tokEnd (tokenize text) (ent.2.2 - 1)
    rw [tokStart_eq hs1, tokEnd_eq he1]
    rcases Nat.lt_or_ge ent.2.1 (ent.2.2 - 1) with hlt | hge
    · have hmono := List.pairwise_iff_get.mp (tokenize_pairwise text)
        ⟨ent.2.1, hs1⟩ ⟨ent.2.2 - 1, he1⟩ (Fin.mk_lt_mk.mpr hlt)
      exact lt_of_le_of_lt hmono hband.1
    · have heq : ent.2.1 = ent.2.2 - 1 := by omega
      simp only [heq]
      exact hband.1
  · show tokEnd (tokenize text) (ent.2.2 - 1) ≤ text.length
    rw [tokEnd_eq he1]
    exact hband.2

/-- C8 witness: the span invariant evaluated at the one entity extracted
by the rule set `patternsC5` from `x y z` (whose rules all require at
least one token). -/
theorem c8_span_invariant_witness :
    (⟨String.toList "x y", String.toList "A", 0, 3,
        some (String.toList "da")⟩ : EntityRow).start <
      (⟨String.toList "x y", String.toList "A", 0, 3,
        some (String.toList "da")⟩ : EntityRow).endPos ∧
    (⟨String.toList "x y", String.toList "A", 0, 3,
        some (String.toList "da")⟩ : EntityRow).endPos ≤
      (String.toList "x y z").length ∧
    (⟨String.toList "x y", String.toList "A", 0, 3,
        some (String.toList "da")⟩ : EntityRow).text =
      ((String.toList "x y z").drop
          (⟨String.toList "x y", String.toList "A", 0, 3,
            some (String.toList "da")⟩ : EntityRow).start).take
        ((⟨String.toList "x y", String.toList "A", 0, 3,
            some (String.toList "da")⟩ : EntityRow).endPos -
          (⟨String.toList "x y", String.toList "A", 0, 3,
            some (String.toList "da")⟩ : EntityRow).start) :=
  c8_span_invariant patternsC5 (String.toList "x y z") (by decide)
    ⟨String.toList "x y", String.toList "A", 0, 3, some (String.toList "da")⟩
    (by decide)

/-- C2, amended: when the rule set passes the `verify_patterns` load check
(at least one compiled ruler pattern — otherwise `process_corpus` logs an
error and returns before touching any file), `process_corpus` streams the
files in order, emitting one enriched record per linked, non-empty
document; the enrichment runs only the pattern-grammar engine
(`EffectSizeNER`) and attaches its effects — `stressors` are not computed
here (they belong to the separate upstream `weak_label` pass whose output
`process_corpus` consumes). -/
theorem c2_stream_enrich (patterns : List (List Char × List PatternData))
    (records : List (List Char × CorpusDoc))
    (files : List (List Char × List Char))
    (hv : verify_patterns patterns = true) :
    process_corpus patterns records files =
      some (corpusLoop patterns records files) ∧
    (corpusLoop patterns records files).1 =
      files.filterMap (fun f =>
        match processFile patterns records f with
        | .emitted d => some d
        | .noRecord => none
        | .emptyText => none) ∧
    ∀ f r,
      (records.find? fun e => decide (e.1 = (get_doi_from_filename f.1).1)) = some r →
      f.2.all Char.isWhitespace = false →
      processFile patterns records f =
        .emitted { r.2 with
          effects := some ((get_entities patterns f.2).map entityToEffect) } := by
  refine ⟨by rw [process_corpus, if_pos hv], ?_, ?_⟩
  · induction files with
    | nil => rfl
    | cons f fs ih =>
      rw [corpusLoop, List.filterMap_cons]
      cases hpf : processFile patterns records f <;> simp [hpf, ih]
  · intro f r hfind hws
    simp [processFile, hfind, hws]

/-- C2 witness: one linked, non-empty document is enriched with exactly
the engine's effects, under a rule set passing the load check. -/
theorem c2_stream_enrich_witness :
    processFile patternsC5 [(String.toList "10.1/x", recX)]
        (String.toList "10.1_x.txt", String.toList "x y z") =
      .emitted { recX with
        effects := some ((get_entities patternsC5 (String.toList "x y z")).map entityToEffect) } :=
  (c2_stream_enrich patternsC5 [(String.toList "10.1/x", recX)]
      [(String.toList "10.1_x.txt", String.toList "x y z")] (by decide)).2.2
    (String.toList "10.1_x.txt", String.toList "x y z")
    (String.toList "10.1/x", recX) (by decide) (by decide)
